import Mathlib

/-!
Verification of SatCat5 core claims: the `satcat5::ptp::Time` fixed-point
timestamp (src/cpp/satcat5/ptp_time.h), the intrusive singly-linked list
(src/cpp/satcat5/list.h), the ConfigBus address map (src/cpp/satcat5/cfgbus_core.h),
and the simulated PTP clock (src/cpp/hal_test/ptp_simclock.cc).

Machine integers are embedded as `Int`/`Nat`; unsigned casts are written as
explicit `% 2^w`.  Pointer-linked nodes are embedded as a head pointer plus an
explicit next-pointer map.
-/

namespace SatCat5

/-! ## Scaling constants (ptp_time.h, lines 23-31) -/

def NSEC_PER_SEC : Int := 1000000000
def NSEC_PER_MSEC : Int := 1000000
def NSEC_PER_USEC : Int := 1000
def SUBNS_PER_NSEC : Int := 65536
def SUBNS_PER_USEC : Int := SUBNS_PER_NSEC * NSEC_PER_USEC
def SUBNS_PER_MSEC : Int := SUBNS_PER_NSEC * NSEC_PER_MSEC
def SUBNS_PER_SEC : Int := SUBNS_PER_NSEC * NSEC_PER_SEC

def INT64_MAX : Int := 9223372036854775807
def INT64_MIN : Int := -9223372036854775808

/-- Modelled from the spec: `satcat5::util::divide` (satcat5/utils.h is not in
the sources provided).  Round-toward-negative-infinity division; every divisor
used in this development is a positive constant, for which floor division
coincides with Euclidean division, so it is embedded as `Int` division. -/
def divide (a b : Int) : Int := a / b

/-- Modelled from the spec: `satcat5::util::modulo` (satcat5/utils.h is not in
the sources provided).  The companion remainder of `divide`: for positive
divisors its result lies in `[0, b)`, matching Euclidean `%`. -/
def modulo (a b : Int) : Int := a % b

/-- Modelled from the spec: `satcat5::util::div_floor` (satcat5/utils.h is not
in the sources provided).  Floor division; used by `Time::field_nsec`. -/
def div_floor (a b : Int) : Int := a / b

/-! ## The ptp::Time object (ptp_time.h, lines 41-148) -/

/-- `satcat5::ptp::Time`: seconds since epoch plus subnanoseconds, both `s64`
(ptp_time.h lines 146-147). -/
structure Time where
  m_secs : Int
  m_subns : Int
deriving DecidableEq

/-- Total value of a `Time` in subnanoseconds (the abstraction function). -/
def Time.total (t : Time) : Int := t.m_secs * SUBNS_PER_SEC + t.m_subns

/-- The documented canonical-form invariant: `m_subns` in `[0, SUBNS_PER_SEC)`
(ptp_time.h line 147). -/
def Time.isCanonical (t : Time) : Prop :=
  0 ≤ t.m_subns ∧ t.m_subns < SUBNS_PER_SEC

instance (t : Time) : Decidable t.isCanonical := by
  unfold Time.isCanonical; infer_instance

/-- Modelled from the spec: `Time::normalize` — "Reduce to canonical form"
(ptp_time.h line 145; the body lives in ptp_time.cc, which is not in the
sources provided).  Carries whole seconds out of `m_subns`, leaving
`m_subns` in `[0, SUBNS_PER_SEC)`. -/
def Time.normalize (t : Time) : Time :=
  ⟨t.m_secs + divide t.m_subns SUBNS_PER_SEC, modulo t.m_subns SUBNS_PER_SEC⟩

/-- Default constructor `Time()` (ptp_time.h lines 44-45). -/
def Time.zero : Time := ⟨0, 0⟩

/-- Single-argument constructor `Time(s64 subnanoseconds)`
(ptp_time.h lines 49-51). -/
def Time.ofSubns (subnanoseconds : Int) : Time :=
  ⟨divide subnanoseconds SUBNS_PER_SEC, modulo subnanoseconds SUBNS_PER_SEC⟩

/-- Modelled from the spec: the multi-argument constructor
`Time(u64 seconds, u32 nanoseconds, u16 subnanoseconds)` (declared at
ptp_time.h line 59; the body lives in ptp_time.cc, which is not in the
sources provided).  Fills the fields in PTP-timestamp format and reduces to
canonical form. -/
def Time.ctor3 (seconds nanoseconds subnanoseconds : Int) : Time :=
  Time.normalize ⟨seconds, nanoseconds * SUBNS_PER_NSEC + subnanoseconds⟩

/-- Modelled from the spec: `Time::operator+` / `operator+=` — "add/sub
(carry/borrow between secs and subns, re-canonicalize)" (spec §4.A; the body
lives in ptp_time.cc, which is not in the sources provided). -/
def Time.add (a b : Time) : Time :=
  Time.normalize ⟨a.m_secs + b.m_secs, a.m_subns + b.m_subns⟩

/-- Modelled from the spec: `Time::operator-` / `operator-=` (spec §4.A; the
body lives in ptp_time.cc, which is not in the sources provided). -/
def Time.sub (a b : Time) : Time :=
  Time.normalize ⟨a.m_secs - b.m_secs, a.m_subns - b.m_subns⟩

/-- Modelled from the spec: unary `Time::operator-` — "unary minus (negate
both, re-canonicalize)" (spec §4.A; the body lives in ptp_time.cc, which is
not in the sources provided). -/
def Time.neg (t : Time) : Time :=
  Time.normalize ⟨-t.m_secs, -t.m_subns⟩

/-- Modelled from the spec: `Time::operator*` / `operator*=` with an unsigned
scale — "scalar multiply (exact on seconds; subns path uses 128-bit
intermediate)" (spec §4.A; the body lives in ptp_time.cc, which is not in the
sources provided).  Scales both fields and re-canonicalizes. -/
def Time.mulScale (t : Time) (scale : Nat) : Time :=
  Time.normalize ⟨t.m_secs * (scale : Int), t.m_subns * (scale : Int)⟩

/-- Modelled from the spec: `Time::operator/` / `operator/=` with an unsigned
scale (spec §4.A; the body lives in ptp_time.cc, which is not in the sources
provided).  Floor-divides the total value: the seconds quotient is exact and
the seconds remainder flows into the subnanosecond path.  Division by zero is
undefined in the source; the model returns the normalized input. -/
def Time.divScale (t : Time) (scale : Nat) : Time :=
  if scale = 0 then Time.normalize t else
    ⟨divide t.m_secs (scale : Int),
     divide (modulo t.m_secs (scale : Int) * SUBNS_PER_SEC + t.m_subns) (scale : Int)⟩

/-- Modelled from the spec: `Time::operator==` compares the two fields
(declared at ptp_time.h line 136; the body lives in ptp_time.cc, which is not
in the sources provided). -/
def Time.eqb (a b : Time) : Bool :=
  a.m_secs == b.m_secs && a.m_subns == b.m_subns

/-- `Time::field_secs` (ptp_time.h lines 62-63). -/
def Time.field_secs (t : Time) : Int := t.m_secs

/-- `Time::field_nsec` (ptp_time.h lines 66-67): floor-divide the
subnanosecond field by `SUBNS_PER_NSEC`, then cast to `u32`. -/
def Time.field_nsec (t : Time) : Int :=
  div_floor t.m_subns SUBNS_PER_NSEC % 4294967296

/-- `Time::field_subns` (ptp_time.h lines 70-71): the raw subnanosecond field,
cast to `u64`. -/
def Time.field_subns (t : Time) : Int := t.m_subns % 18446744073709551616

/-- `Time::correction` (ptp_time.h lines 108-109): residual subnanoseconds
below one nanosecond, cast to `u64`. -/
def Time.correction (t : Time) : Int :=
  modulo t.m_subns SUBNS_PER_NSEC % 18446744073709551616

/-- Saturation to the signed 64-bit range, used by the `delta_*` conversions
("Times beyond the safe range will return INT64_MIN or INT64_MAX",
ptp_time.h line 83). -/
def clampS64 (x : Int) : Int :=
  if INT64_MAX < x then INT64_MAX else if x < INT64_MIN then INT64_MIN else x

/-- Modelled from the spec: `Time::delta_subns` (declared at ptp_time.h
line 85; the body lives in ptp_time.cc, which is not in the sources
provided).  The total subnanosecond value with saturating overflow. -/
def Time.delta_subns (t : Time) : Int := clampS64 t.total

/-- Modelled from the spec: `Time::delta_nsec` (declared at ptp_time.h
line 86; the body lives in ptp_time.cc, which is not in the sources
provided).  The total value in nanoseconds with saturating overflow. -/
def Time.delta_nsec (t : Time) : Int := clampS64 (divide t.total SUBNS_PER_NSEC)

/-- Modelled from the spec: `Time::delta_usec` (declared at ptp_time.h
line 87; the body lives in ptp_time.cc, which is not in the sources
provided). -/
def Time.delta_usec (t : Time) : Int := clampS64 (divide t.total SUBNS_PER_USEC)

/-- Modelled from the spec: `Time::delta_msec` (declared at ptp_time.h
line 88; the body lives in ptp_time.cc, which is not in the sources
provided). -/
def Time.delta_msec (t : Time) : Int := clampS64 (divide t.total SUBNS_PER_MSEC)

/-- One day expressed in subnanoseconds (`ONE_DAY`, ptp_time.h line 162). -/
def ONE_DAY_SUBNS : Int := SUBNS_PER_SEC * 3600 * 24

/-! ## PTP measurement formulas (spec §3 "PTP Measurement") -/

/-- Modelled from the spec: mean path delay `((t2−t1) + (t4−t3))/2`
(spec §3; the Measurement code is not in the sources provided). -/
def meanPathDelay (t1 t2 t3 t4 : Time) : Time :=
  ((t2.sub t1).add (t4.sub t3)).divScale 2

/-- Modelled from the spec: offset-from-master `((t2−t1) − (t4−t3))/2`
(spec §3; the Measurement code is not in the sources provided). -/
def offsetFromMaster (t1 t2 t3 t4 : Time) : Time :=
  ((t2.sub t1).sub (t4.sub t3)).divScale 2

/-! ## SimulatedClock (hal_test/ptp_simclock.cc) -/

/-- State of `satcat5::ptp::SimulatedClock` relevant to its coarse/fine
adjustment interface (ptp_simclock.cc lines 16-47). -/
structure SimulatedClock where
  m_rtc : Time
  m_count_coarse : Nat
  m_count_fine : Nat
  m_offset : Int
  m_stats : List Int

/-- `SimulatedClock::clock_now` (ptp_simclock.cc lines 28-30). -/
def SimulatedClock.clock_now (c : SimulatedClock) : Time := c.m_rtc

/-- `SimulatedClock::clock_adjust` (ptp_simclock.cc lines 32-36): counts the
coarse step, adds the full amount to `m_rtc` (via `Time::operator+=`), and
returns `Time(0)`. -/
def SimulatedClock.clock_adjust (c : SimulatedClock) (amount : Time) :
    Time × SimulatedClock :=
  (Time.ofSubns 0,
   { c with m_count_coarse := c.m_count_coarse + 1,
            m_rtc := c.m_rtc.add amount })

/-- `SimulatedClock::clock_rate` (ptp_simclock.cc lines 43-47). -/
def SimulatedClock.clock_rate (c : SimulatedClock) (offset : Int) :
    SimulatedClock :=
  { c with m_count_fine := c.m_count_fine + 1,
           m_offset := offset,
           m_stats := offset :: c.m_stats }

/-! ## ConfigBus address map (cfgbus_core.h) -/

def DEVS_PER_CFGBUS : Nat := 256
def REGS_PER_DEVICE : Nat := 1024
def MAX_DEVICES : Nat := 256
def MAX_TOTAL_REGS : Nat := REGS_PER_DEVICE * MAX_DEVICES

/-- `ConfigBus::get_regaddr` (cfgbus_core.h lines 147-148):
`REGS_PER_DEVICE * dev + reg` in `unsigned` (32-bit) arithmetic. -/
def get_regaddr (dev reg : Nat) : Nat :=
  (REGS_PER_DEVICE * dev + reg) % 4294967296

/-! ## Intrusive singly-linked list (list.h)

A heap of nodes is embedded as a head pointer plus the `m_next` field of
every node: `head` is the `T*` list pointer and `nx a` is `a->m_next`
(`none` embeds the null pointer).  The unbounded `while` loops of `ListCore`
are embedded with an explicit fuel parameter; the theorems establish how much
fuel makes the fuel-exhaustion branch unreachable. -/

/-- A linked-list heap state: the list head plus every node's `m_next`. -/
structure ListState (α : Type u) where
  head : Option α
  nx : α → Option α

/-- Loop of `ListCore::len` (list.h lines 123-133): traverse and count. -/
def lenGo (nx : α → Option α) : Option α → Nat → Nat
  | none, _ => 0
  | some _, 0 => 0
  | some a, fuel + 1 => lenGo nx (nx a) fuel + 1

/-- `ListCore::len` on a heap state. -/
def ListState.lenOp (L : ListState α) (fuel : Nat) : Nat :=
  lenGo L.nx L.head fuel

/-- Loop of `ListCore::contains` (list.h lines 65-74): scan for the item. -/
def containsGo [DecidableEq α] (nx : α → Option α) (item : α) :
    Option α → Nat → Bool
  | none, _ => false
  | some _, 0 => false
  | some a, fuel + 1 => if a = item then true else containsGo nx item (nx a) fuel

/-- `ListCore::contains` on a heap state. -/
def ListState.containsOp [DecidableEq α] (L : ListState α) (item : α)
    (fuel : Nat) : Bool :=
  containsGo L.nx item L.head fuel

/-- `ListCore::push_front` (list.h lines 151-156): `item->m_next = list;
list = item`. -/
def ListState.pushFront [DecidableEq α] (L : ListState α) (item : α) :
    ListState α :=
  { head := some item, nx := Function.update L.nx item L.head }

/-- Loop of `ListCore::find_ptr` (list.h lines 76-86).  A `T**` slot is
embedded as `none` for `&list` and `some p` for `&(p->m_next)`; `cur` is the
value currently stored in `slot`.  Returns the slot whose target is `item`
(`none` when the end of the list is reached first). -/
def findSlotGo [DecidableEq α] (nx : α → Option α) (item : α) :
    Option α → Option α → Nat → Option (Option α)
  | _, _, 0 => none
  | slot, cur, fuel + 1 =>
    if cur = some item then some slot
    else
      match cur with
      | none => none
      | some c => findSlotGo nx item (some c) (nx c) fuel

/-- `ListCore::remove` (list.h lines 166-172): `find_ptr`, then redirect the
found slot to `item->m_next`, then unconditionally clear `item->m_next`. -/
def ListState.removeOp [DecidableEq α] (L : ListState α) (item : α)
    (fuel : Nat) : ListState α :=
  let L1 :=
    match findSlotGo L.nx item none L.head fuel with
    | none => L
    | some none => { L with head := L.nx item }
    | some (some p) => { L with nx := Function.update L.nx p (L.nx item) }
  { L1 with nx := Function.update L1.nx item none }

/-- The node reached after `k` steps of `m_next` from `h`. -/
def walkN (nx : α → Option α) (h : Option α) : Nat → Option α
  | 0 => h
  | k + 1 => (walkN nx h k).bind nx

/-- Loop of `ListCore::has_loop` (list.h lines 99-112): the tortoise/hare
loop body.  `slow->m_next` is read with a default that the correctness proof
shows is never used (the slow pointer trails the fast one). -/
def hasLoopGo [DecidableEq α] (nx : α → Option α) :
    α → Option α → Nat → Bool
  | _, _, 0 => false
  | slow, fast, fuel + 1 =>
    match fast with
    | none => false
    | some f =>
      match nx f with
      | none => false
      | some f1 =>
        if slow = f ∨ slow = f1 then true
        else hasLoopGo nx ((nx slow).getD slow) (nx f1) fuel

/-- `ListCore::has_loop` (list.h lines 99-112): empty list has no loop;
otherwise run tortoise/hare from `(list, list->m_next)`.  The fuel
`Fintype.card α + 1` is proved sufficient by `claim6_has_loop`. -/
def ListState.hasLoopOp [DecidableEq α] [Fintype α] (L : ListState α) : Bool :=
  match L.head with
  | none => false
  | some h => hasLoopGo L.nx h (L.nx h) (Fintype.card α + 1)

/-- The pointer chain starting at `h` spells exactly the node list `l` and
then terminates at null. -/
def isChain (nx : α → Option α) : Option α → List α → Prop
  | h, [] => h = none
  | h, a :: l => h = some a ∧ isChain nx (nx a) l

/-- The heap state holds the (finite, null-terminated) list `l`. -/
def ListState.represents (L : ListState α) (l : List α) : Prop :=
  isChain L.nx L.head l

/-! ## Basic Time lemmas -/

theorem SUBNS_PER_SEC_pos : 0 < SUBNS_PER_SEC := by decide

theorem isCanonical_normalize (t : Time) : t.normalize.isCanonical := by
  unfold Time.normalize Time.isCanonical modulo divide
  exact ⟨Int.emod_nonneg _ (by decide), Int.emod_lt_of_pos _ (by decide)⟩

theorem total_normalize (t : Time) : t.normalize.total = t.total := by
  unfold Time.normalize Time.total modulo divide
  simp only [SUBNS_PER_SEC, SUBNS_PER_NSEC, NSEC_PER_SEC]
  ring_nf
  omega

theorem normalize_of_isCanonical {t : Time} (h : t.isCanonical) :
    t.normalize = t := by
  obtain ⟨h0, h1⟩ := h
  unfold Time.normalize modulo divide
  have hd : t.m_subns / SUBNS_PER_SEC = 0 := Int.ediv_eq_zero_of_lt h0 h1
  have hm : t.m_subns % SUBNS_PER_SEC = t.m_subns := Int.emod_eq_of_lt h0 h1
  cases t
  simp_all

theorem isCanonical_total_inj {a b : Time} (ha : a.isCanonical)
    (hb : b.isCanonical) (h : a.total = b.total) : a = b := by
  obtain ⟨as, au⟩ := a
  obtain ⟨bs, bu⟩ := b
  obtain ⟨ha0, ha1⟩ := ha
  obtain ⟨hb0, hb1⟩ := hb
  unfold Time.total at h
  simp only [SUBNS_PER_SEC, SUBNS_PER_NSEC, NSEC_PER_SEC] at *
  simp only [Time.mk.injEq]
  constructor <;> omega

theorem total_add (a b : Time) : (a.add b).total = a.total + b.total := by
  unfold Time.add
  rw [total_normalize]
  unfold Time.total
  ring

theorem total_sub (a b : Time) : (a.sub b).total = a.total - b.total := by
  unfold Time.sub
  rw [total_normalize]
  unfold Time.total
  ring

theorem total_neg (t : Time) : t.neg.total = -t.total := by
  unfold Time.neg
  rw [total_normalize]
  unfold Time.total
  ring

theorem isCanonical_ofSubns (x : Int) : (Time.ofSubns x).isCanonical := by
  unfold Time.ofSubns Time.isCanonical modulo divide
  exact ⟨Int.emod_nonneg _ (by decide), Int.emod_lt_of_pos _ (by decide)⟩

theorem isCanonical_divScale {t : Time} (h : t.isCanonical) (k : Nat) :
    (t.divScale k).isCanonical := by
  unfold Time.divScale
  by_cases hk : k = 0
  · simpa [hk] using isCanonical_normalize t
  · have hK : (0 : Int) < (k : Int) := by exact_mod_cast Nat.pos_of_ne_zero hk
    obtain ⟨h0, h1⟩ := h
    have hr0 : 0 ≤ t.m_secs % (k : Int) := Int.emod_nonneg _ (by omega)
    have hr1 : t.m_secs % (k : Int) < (k : Int) := Int.emod_lt_of_pos _ hK
    have hnum0 : 0 ≤ t.m_secs % (k : Int) * SUBNS_PER_SEC + t.m_subns := by
      have := mul_nonneg hr0 (le_of_lt SUBNS_PER_SEC_pos)
      omega
    have hnum1 : t.m_secs % (k : Int) * SUBNS_PER_SEC + t.m_subns
        < SUBNS_PER_SEC * (k : Int) := by
      have hstep : t.m_secs % (k : Int) * SUBNS_PER_SEC
          ≤ ((k : Int) - 1) * SUBNS_PER_SEC :=
        mul_le_mul_of_nonneg_right (by omega) (le_of_lt SUBNS_PER_SEC_pos)
      nlinarith [SUBNS_PER_SEC_pos]
    simp only [hk, if_false]
    unfold Time.isCanonical modulo divide
    refine ⟨Int.ediv_nonneg hnum0 (by omega), ?_⟩
    rw [Int.ediv_lt_iff_lt_mul hK]
    exact hnum1

/-- C1: every Time produced by the public constructors or by unary minus,
addition, subtraction (operator+, operator-, operator+=, operator-=), scalar
multiplication, or scalar division is in canonical form — its subnanosecond
field lies in `[0, SUBNS_PER_SEC)` — and every canonical Time `t` satisfies
`t = t.normalize` and has `m_secs ≤ 0` whenever its total value is negative. -/
theorem claim1_canonical_arith (a b t : Time) (x sec nsec subn : Int) (k : Nat)
    (ha : a.isCanonical) (hb : b.isCanonical) (ht : t.isCanonical) :
    (Time.ofSubns x).isCanonical ∧ Time.zero.isCanonical ∧
    (Time.ctor3 sec nsec subn).isCanonical ∧
    a.neg.isCanonical ∧ (a.add b).isCanonical ∧ (a.sub b).isCanonical ∧
    (a.mulScale k).isCanonical ∧ (a.divScale k).isCanonical ∧
    t.normalize = t ∧ (t.total < 0 → t.m_secs ≤ 0) := by
  refine ⟨isCanonical_ofSubns x, by decide, isCanonical_normalize _,
    isCanonical_normalize _, isCanonical_normalize _, isCanonical_normalize _,
    isCanonical_normalize _, isCanonical_divScale ha k,
    normalize_of_isCanonical ht, ?_⟩
  intro hneg
  obtain ⟨ht0, ht1⟩ := ht
  unfold Time.total at hneg
  simp only [SUBNS_PER_SEC, SUBNS_PER_NSEC, NSEC_PER_SEC] at *
  omega

theorem claim1_canonical_arith_witness :
    ((⟨0, 5⟩ : Time).isCanonical ∧ (⟨1, 7⟩ : Time).isCanonical ∧
      (⟨-1, 5⟩ : Time).isCanonical) ∧
    ((Time.ofSubns 3).isCanonical ∧ Time.zero.isCanonical ∧
     (Time.ctor3 2 4 6).isCanonical ∧
     (Time.neg ⟨0, 5⟩).isCanonical ∧ (Time.add ⟨0, 5⟩ ⟨1, 7⟩).isCanonical ∧
     (Time.sub ⟨0, 5⟩ ⟨1, 7⟩).isCanonical ∧
     (Time.mulScale ⟨0, 5⟩ 3).isCanonical ∧
     (Time.divScale ⟨0, 5⟩ 3).isCanonical ∧
     Time.normalize ⟨-1, 5⟩ = (⟨-1, 5⟩ : Time) ∧
     ((⟨-1, 5⟩ : Time).total < 0 → (⟨-1, 5⟩ : Time).m_secs ≤ 0)) :=
  ⟨⟨by decide, by decide, by decide⟩,
    claim1_canonical_arith ⟨0, 5⟩ ⟨1, 7⟩ ⟨-1, 5⟩ 3 2 4 6 3
      (by decide) (by decide) (by decide)⟩

/-- C3: for canonical Times `a` and `b`, `(a + b) - b` equals `a` exactly,
with equality decided by `Time::operator==` (field-wise comparison). -/
theorem claim3_add_sub_exact (a b : Time)
    (ha : a.isCanonical) (hb : b.isCanonical) :
    Time.eqb ((a.add b).sub b) a = true := by
  have hc : ((a.add b).sub b).isCanonical := isCanonical_normalize _
  have ht : ((a.add b).sub b).total = a.total := by
    rw [total_sub, total_add]; ring
  rw [isCanonical_total_inj hc ha ht]
  simp [Time.eqb]

theorem claim3_add_sub_exact_witness :
    (⟨2, 10⟩ : Time).isCanonical ∧ (⟨-1, 65535999999999⟩ : Time).isCanonical ∧
    Time.eqb ((Time.add ⟨2, 10⟩ ⟨-1, 65535999999999⟩).sub
      ⟨-1, 65535999999999⟩) ⟨2, 10⟩ = true :=
  ⟨by decide, by decide,
    claim3_add_sub_exact ⟨2, 10⟩ ⟨-1, 65535999999999⟩ (by decide) (by decide)⟩

theorem clampS64_eq_self {x : Int} (h1 : INT64_MIN ≤ x) (h2 : x ≤ INT64_MAX) :
    clampS64 x = x := by
  unfold clampS64 INT64_MAX INT64_MIN at *
  split_ifs <;> omega

theorem clampS64_eq_max {x : Int} (h : INT64_MAX < x) : clampS64 x = INT64_MAX := by
  unfold clampS64 INT64_MAX INT64_MIN at *
  split_ifs <;> omega

theorem clampS64_eq_min {x : Int} (h : x < INT64_MIN) : clampS64 x = INT64_MIN := by
  unfold clampS64 INT64_MAX INT64_MIN at *
  split_ifs <;> omega

/-- C5: for a time-difference `t`, each `delta_*` conversion is exact whenever
the value lies within one day of zero (so the safe range spans at least
±24 hours), and a value whose conversion overflows the signed 64-bit range
saturates to `INT64_MAX` or `INT64_MIN` according to its sign. -/
theorem claim5_delta_saturation (t : Time) (h : t.isCanonical) :
    ((-ONE_DAY_SUBNS ≤ t.total ∧ t.total ≤ ONE_DAY_SUBNS) →
      t.delta_subns = t.total ∧
      t.delta_nsec = divide t.total SUBNS_PER_NSEC ∧
      t.delta_usec = divide t.total SUBNS_PER_USEC ∧
      t.delta_msec = divide t.total SUBNS_PER_MSEC) ∧
    (INT64_MAX < t.total → t.delta_subns = INT64_MAX) ∧
    (t.total < INT64_MIN → t.delta_subns = INT64_MIN) ∧
    (INT64_MAX < divide t.total SUBNS_PER_NSEC → t.delta_nsec = INT64_MAX) ∧
    (divide t.total SUBNS_PER_NSEC < INT64_MIN → t.delta_nsec = INT64_MIN) ∧
    (INT64_MAX < divide t.total SUBNS_PER_USEC → t.delta_usec = INT64_MAX) ∧
    (divide t.total SUBNS_PER_USEC < INT64_MIN → t.delta_usec = INT64_MIN) ∧
    (INT64_MAX < divide t.total SUBNS_PER_MSEC → t.delta_msec = INT64_MAX) ∧
    (divide t.total SUBNS_PER_MSEC < INT64_MIN → t.delta_msec = INT64_MIN) := by
  unfold Time.delta_subns Time.delta_nsec Time.delta_usec Time.delta_msec
  refine ⟨?_, fun hc => clampS64_eq_max hc, fun hc => clampS64_eq_min hc,
    fun hc => clampS64_eq_max hc, fun hc => clampS64_eq_min hc,
    fun hc => clampS64_eq_max hc, fun hc => clampS64_eq_min hc,
    fun hc => clampS64_eq_max hc, fun hc => clampS64_eq_min hc⟩
  intro hd
  obtain ⟨hd1, hd2⟩ := hd
  unfold ONE_DAY_SUBNS SUBNS_PER_SEC SUBNS_PER_USEC SUBNS_PER_MSEC
    SUBNS_PER_NSEC NSEC_PER_SEC NSEC_PER_USEC NSEC_PER_MSEC at *
  norm_num at *
  refine ⟨clampS64_eq_self ?_ ?_, clampS64_eq_self ?_ ?_,
    clampS64_eq_self ?_ ?_, clampS64_eq_self ?_ ?_⟩ <;>
    simp only [divide, INT64_MAX, INT64_MIN] <;> omega

theorem claim5_delta_saturation_witness :
    (Time.mk 3 17).isCanonical ∧
    ((-ONE_DAY_SUBNS ≤ (Time.mk 3 17).total ∧
        (Time.mk 3 17).total ≤ ONE_DAY_SUBNS) →
      (Time.mk 3 17).delta_subns = (Time.mk 3 17).total ∧
      (Time.mk 3 17).delta_nsec = divide (Time.mk 3 17).total SUBNS_PER_NSEC ∧
      (Time.mk 3 17).delta_usec = divide (Time.mk 3 17).total SUBNS_PER_USEC ∧
      (Time.mk 3 17).delta_msec = divide (Time.mk 3 17).total SUBNS_PER_MSEC) ∧
    (INT64_MAX < (Time.mk 3 17).total →
      (Time.mk 3 17).delta_subns = INT64_MAX) ∧
    ((Time.mk 3 17).total < INT64_MIN →
      (Time.mk 3 17).delta_subns = INT64_MIN) ∧
    (INT64_MAX < divide (Time.mk 3 17).total SUBNS_PER_NSEC →
      (Time.mk 3 17).delta_nsec = INT64_MAX) ∧
    (divide (Time.mk 3 17).total SUBNS_PER_NSEC < INT64_MIN →
      (Time.mk 3 17).delta_nsec = INT64_MIN) ∧
    (INT64_MAX < divide (Time.mk 3 17).total SUBNS_PER_USEC →
      (Time.mk 3 17).delta_usec = INT64_MAX) ∧
    (divide (Time.mk 3 17).total SUBNS_PER_USEC < INT64_MIN →
      (Time.mk 3 17).delta_usec = INT64_MIN) ∧
    (INT64_MAX < divide (Time.mk 3 17).total SUBNS_PER_MSEC →
      (Time.mk 3 17).delta_msec = INT64_MAX) ∧
    (divide (Time.mk 3 17).total SUBNS_PER_MSEC < INT64_MIN →
      (Time.mk 3 17).delta_msec = INT64_MIN) :=
  ⟨by decide, claim5_delta_saturation (Time.mk 3 17) (by decide)⟩

/-- C8: for every canonical Time, `field_subns = 65536 * field_nsec +
correction`, with `field_nsec` in `[0, 10^9)` and `correction` in
`[0, 65536)`: the (seconds, nanoseconds, correction) triple is lossless. -/
theorem claim8_field_decomposition (t : Time) (h : t.isCanonical) :
    t.field_subns = 65536 * t.field_nsec + t.correction ∧
    0 ≤ t.field_nsec ∧ t.field_nsec < 1000000000 ∧
    0 ≤ t.correction ∧ t.correction < 65536 := by
  obtain ⟨h0, h1⟩ := h
  unfold Time.field_subns Time.field_nsec Time.correction div_floor modulo
  unfold SUBNS_PER_SEC SUBNS_PER_NSEC NSEC_PER_SEC at *
  norm_num at *
  refine ⟨?_, ?_, ?_, ?_, ?_⟩ <;> omega

theorem claim8_field_decomposition_witness :
    (Time.mk 123456 51708985344000).isCanonical ∧
    ((Time.mk 123456 51708985344000).field_subns =
      65536 * (Time.mk 123456 51708985344000).field_nsec +
        (Time.mk 123456 51708985344000).correction ∧
     0 ≤ (Time.mk 123456 51708985344000).field_nsec ∧
     (Time.mk 123456 51708985344000).field_nsec < 1000000000 ∧
     0 ≤ (Time.mk 123456 51708985344000).correction ∧
     (Time.mk 123456 51708985344000).correction < 65536) :=
  ⟨by decide, claim8_field_decomposition (Time.mk 123456 51708985344000) (by decide)⟩

/-- C10: `SimulatedClock::clock_adjust` applies the full coarse step: the new
`clock_now` is the old one plus the amount, the returned residual is
`Time(0)` (total value zero), and the fine-rate offset is untouched. -/
theorem claim10_clock_adjust (c : SimulatedClock) (amount : Time) :
    (c.clock_adjust amount).2.clock_now = c.clock_now.add amount ∧
    (c.clock_adjust amount).1 = Time.ofSubns 0 ∧
    (c.clock_adjust amount).1.total = 0 ∧
    (c.clock_adjust amount).2.m_offset = c.m_offset := by
  refine ⟨rfl, rfl, ?_, rfl⟩
  simp [SimulatedClock.clock_adjust, Time.ofSubns, Time.total, divide, modulo]

/-- C7: `ConfigBus::get_regaddr` computes `1024 * dev + reg`; on the device
and register ranges of the gateware it is injective and lands below
`MAX_TOTAL_REGS`. -/
theorem claim7_get_regaddr (dev reg dev2 reg2 : Nat)
    (h1 : dev < 256) (h2 : reg < 1024) (h3 : dev2 < 256) (h4 : reg2 < 1024) :
    get_regaddr dev reg = 1024 * dev + reg ∧
    (get_regaddr dev reg = get_regaddr dev2 reg2 → dev = dev2 ∧ reg = reg2) ∧
    get_regaddr dev reg < MAX_TOTAL_REGS := by
  simp only [get_regaddr, REGS_PER_DEVICE, MAX_TOTAL_REGS, MAX_DEVICES] at *
  refine ⟨?_, fun he => ?_, ?_⟩ <;> omega

theorem claim7_get_regaddr_witness :
    (7 < 256 ∧ 9 < 1024 ∧ 255 < 256 ∧ 1023 < 1024) ∧
    (get_regaddr 7 9 = 1024 * 7 + 9 ∧
     (get_regaddr 7 9 = get_regaddr 255 1023 → 7 = 255 ∧ 9 = 1023) ∧
     get_regaddr 7 9 < MAX_TOTAL_REGS) :=
  ⟨⟨by decide, by decide, by decide, by decide⟩,
    claim7_get_regaddr 7 9 255 1023 (by decide) (by decide) (by decide) (by decide)⟩

/-- C2 counterexample: with the spec's Measurement formulas, the inputs
t1=100, t2=105, t3=200, t4=215 do NOT give mean path delay 5 and offset 0:
`(t2−t1) = 5` and `(t4−t3) = 15`, so the mean path delay is `(5+15)/2 = 10`
and the offset is `(5−15)/2 = −5`. -/
theorem claim2_measurement_counterexample :
    meanPathDelay (Time.ofSubns 100) (Time.ofSubns 105)
        (Time.ofSubns 200) (Time.ofSubns 215) ≠ Time.ofSubns 5 ∧
    offsetFromMaster (Time.ofSubns 100) (Time.ofSubns 105)
        (Time.ofSubns 200) (Time.ofSubns 215) ≠ Time.ofSubns 0 := by
  constructor <;> decide

/-- C2 amended: with the spec's Measurement formulas, the inputs t1=100,
t2=105, t3=200, t4=215 yield mean path delay = 10 and
offset-from-master = −5. -/
theorem claim2_measurement_amended :
    meanPathDelay (Time.ofSubns 100) (Time.ofSubns 105)
        (Time.ofSubns 200) (Time.ofSubns 215) = Time.ofSubns 10 ∧
    offsetFromMaster (Time.ofSubns 100) (Time.ofSubns 105)
        (Time.ofSubns 200) (Time.ofSubns 215) = Time.ofSubns (-5) := by
  constructor <;> decide

/-! ## Linked-list lemmas -/

theorem isChain_congr {α : Type u} {nx nx2 : α → Option α} :
    ∀ {h : Option α} {l : List α}, isChain nx h l →
      (∀ a ∈ l, nx2 a = nx a) → isChain nx2 h l := by
  intro h l
  induction l generalizing h with
  | nil => intro hc _; exact hc
  | cons a l ih =>
    intro hc hagree
    obtain ⟨h1, h2⟩ := hc
    refine ⟨h1, ?_⟩
    rw [hagree a (List.mem_cons_self a l)]
    exact ih h2 fun b hb => hagree b (List.mem_cons_of_mem a hb)

theorem lenGo_of_chain {α : Type u} {nx : α → Option α} :
    ∀ {h : Option α} {l : List α} {fuel : Nat}, isChain nx h l →
      l.length ≤ fuel → lenGo nx h fuel = l.length := by
  intro h l
  induction l generalizing h with
  | nil =>
    intro fuel hc _
    unfold isChain at hc
    subst hc
    cases fuel <;> simp [lenGo]
  | cons a l ih =>
    intro fuel hc hle
    obtain ⟨ha, hc2⟩ := hc
    subst ha
    cases fuel with
    | zero => simp at hle
    | succ fuel =>
      simp only [lenGo, List.length_cons]
      rw [ih hc2 (by simpa using hle)]

theorem findSlotGo_eq_none {α : Type u} [DecidableEq α] {nx : α → Option α}
    {x : α} :
    ∀ {h : Option α} {l : List α} {slot : Option α} {fuel : Nat},
      isChain nx h l → x ∉ l → l.length + 1 ≤ fuel →
      findSlotGo nx x slot h fuel = none := by
  intro h l
  induction l generalizing h with
  | nil =>
    intro slot fuel hc _ hf
    unfold isChain at hc
    subst hc
    cases fuel with
    | zero => simp at hf
    | succ fuel => simp [findSlotGo]
  | cons a l ih =>
    intro slot fuel hc hmem hf
    obtain ⟨ha, hc2⟩ := hc
    subst ha
    cases fuel with
    | zero => simp at hf
    | succ fuel =>
      have hax : ¬(a = x) := by
        intro he
        exact hmem (he ▸ List.mem_cons_self a l)
      simp only [findSlotGo, Option.some.injEq, hax, if_false]
      exact ih hc2 (fun hm => hmem (List.mem_cons_of_mem a hm)) (by simpa using hf)

/-- C4: pushing a fresh node `x` (null `m_next`, not on the list) onto a
finite list `l` makes the length grow by one, makes `contains` find `x`, and
a subsequent `remove` of `x` restores the heap state exactly. -/
theorem claim4_push_front {α : Type u} [DecidableEq α] (L : ListState α)
    (l : List α) (x : α)
    (hrep : L.represents l) (hx : L.nx x = none) (hmem : x ∉ l) :
    (L.pushFront x).lenOp (l.length + 1) = L.lenOp l.length + 1 ∧
    (L.pushFront x).containsOp x (l.length + 1) = true ∧
    (L.pushFront x).removeOp x (l.length + 1) = L := by
  have hchain2 : isChain (Function.update L.nx x L.head) L.head l := by
    refine isChain_congr hrep fun a ha => ?_
    have hax : a ≠ x := fun he => hmem (he ▸ ha)
    exact Function.update_noteq hax _ _
  refine ⟨?_, ?_, ?_⟩
  · simp only [ListState.pushFront, ListState.lenOp, lenGo]
    rw [Function.update_same]
    rw [lenGo_of_chain hchain2 (le_refl _), lenGo_of_chain hrep (le_refl _)]
  · simp [ListState.pushFront, ListState.containsOp, containsGo]
  · obtain ⟨hd, nx⟩ := L
    have hx2 : nx x = none := hx
    have hfind : findSlotGo (Function.update nx x hd) x none (some x)
        (l.length + 1) = some none := by
      simp [findSlotGo]
    show ListState.removeOp ⟨some x, Function.update nx x hd⟩ x (l.length + 1)
        = ⟨hd, nx⟩
    simp only [ListState.removeOp, hfind]
    simp only [Function.update_same, Function.update_idem, ListState.mk.injEq]
    refine ⟨by trivial, ?_⟩
    rw [show (none : Option α) = nx x from hx2.symm, Function.update_eq_self]

theorem claim4_push_front_witness :
    ((⟨some 0, fun _ => none⟩ : ListState Nat).represents [0] ∧
      (⟨some 0, fun _ => none⟩ : ListState Nat).nx 1 = none ∧ 1 ∉ [0]) ∧
    (((⟨some 0, fun _ => none⟩ : ListState Nat).pushFront 1).lenOp 2 =
        (⟨some 0, fun _ => none⟩ : ListState Nat).lenOp 1 + 1 ∧
     ((⟨some 0, fun _ => none⟩ : ListState Nat).pushFront 1).containsOp 1 2 =
        true ∧
     ((⟨some 0, fun _ => none⟩ : ListState Nat).pushFront 1).removeOp 1 2 =
        (⟨some 0, fun _ => none⟩ : ListState Nat)) :=
  ⟨⟨⟨rfl, rfl⟩, rfl, by decide⟩,
    claim4_push_front ⟨some 0, fun _ => none⟩ [0] 1 ⟨rfl, rfl⟩ rfl (by decide)⟩

/-- C9: removing a node `x` that is not on the (finite) list leaves the head
and every other node's `m_next` unchanged — the list still represents the
same node sequence — but still clears `x`'s own `m_next` pointer. -/
theorem claim9_remove_absent {α : Type u} [DecidableEq α] (L : ListState α)
    (l : List α) (x : α)
    (hrep : L.represents l) (hmem : x ∉ l) :
    (L.removeOp x (l.length + 1)).head = L.head ∧
    (∀ y, y ≠ x → (L.removeOp x (l.length + 1)).nx y = L.nx y) ∧
    (L.removeOp x (l.length + 1)).nx x = none ∧
    (L.removeOp x (l.length + 1)).represents l := by
  have hfind : findSlotGo L.nx x none L.head (l.length + 1) = none :=
    findSlotGo_eq_none hrep hmem (le_refl _)
  simp only [ListState.removeOp, hfind]
  refine ⟨by trivial, fun y hy => Function.update_noteq hy _ _,
    Function.update_same _ _ _, ?_⟩
  refine isChain_congr hrep fun a ha => ?_
  have hax : a ≠ x := fun he => hmem (he ▸ ha)
  exact Function.update_noteq hax _ _

theorem claim9_remove_absent_witness :
    ((⟨some 0, fun _ => none⟩ : ListState Nat).represents [0] ∧ 1 ∉ [0]) ∧
    (((⟨some 0, fun _ => none⟩ : ListState Nat).removeOp 1 2).head =
        (⟨some 0, fun _ => none⟩ : ListState Nat).head ∧
     (∀ y, y ≠ 1 →
        ((⟨some 0, fun _ => none⟩ : ListState Nat).removeOp 1 2).nx y =
          (⟨some 0, fun _ => none⟩ : ListState Nat).nx y) ∧
     ((⟨some 0, fun _ => none⟩ : ListState Nat).removeOp 1 2).nx 1 = none ∧
     ((⟨some 0, fun _ => none⟩ : ListState Nat).removeOp 1 2).represents [0]) :=
  ⟨⟨⟨rfl, rfl⟩, by decide⟩,
    claim9_remove_absent ⟨some 0, fun _ => none⟩ [0] 1 ⟨rfl, rfl⟩ (by decide)⟩

/-! ## Tortoise/hare loop detection (list.h lines 99-112) -/

theorem walkN_none_succ {α : Type u} {nx : α → Option α} {h : Option α}
    {k : Nat} (hk : walkN nx h k = none) : walkN nx h (k + 1) = none := by
  show (walkN nx h k).bind nx = none
  rw [hk]
  rfl

theorem walkN_none_mono {α : Type u} {nx : α → Option α} {h : Option α}
    {i j : Nat} (hi : walkN nx h i = none) (hij : i ≤ j) :
    walkN nx h j = none := by
  induction j with
  | zero =>
    have : i = 0 := by omega
    subst this
    exact hi
  | succ j ih =>
    by_cases hij2 : i ≤ j
    · exact walkN_none_succ (ih hij2)
    · have : i = j + 1 := by omega
      subst this
      exact hi

theorem walkN_add {α : Type u} (nx : α → Option α) (h : Option α) (i : Nat) :
    ∀ j, walkN nx h (i + j) = walkN nx (walkN nx h i) j
  | 0 => rfl
  | j + 1 => by
    show (walkN nx h (i + j)).bind nx = (walkN nx (walkN nx h i) j).bind nx
    rw [walkN_add nx h i j]

theorem walkN_period {α : Type u} {nx : α → Option α} {h : Option α}
    {a b : Nat} (heq : walkN nx h a = walkN nx h b) (hle : a ≤ b)
    (c : Nat) (hc : a ≤ c) :
    walkN nx h (c + (b - a)) = walkN nx h c := by
  obtain ⟨d, rfl⟩ : ∃ d, c = a + d := ⟨c - a, by omega⟩
  have h1 : a + d + (b - a) = b + d := by omega
  rw [h1, walkN_add nx h b d, ← heq, ← walkN_add nx h a d]

theorem walkN_period_mul {α : Type u} {nx : α → Option α} {h : Option α}
    {a b : Nat} (heq : walkN nx h a = walkN nx h b) (hle : a ≤ b)
    (c : Nat) (hc : a ≤ c) :
    ∀ m : Nat, walkN nx h (c + m * (b - a)) = walkN nx h c
  | 0 => by simp
  | m + 1 => by
    have h1 : c + (m + 1) * (b - a) = (c + m * (b - a)) + (b - a) := by ring
    rw [h1, walkN_period heq hle _ (by omega),
      walkN_period_mul heq hle c hc m]

/-- If the walk revisits a node, it never reaches null. -/
theorem walkN_never_none_of_revisit {α : Type u} {nx : α → Option α}
    {h : Option α} {i j : Nat} (hij : i < j)
    (heq : walkN nx h i = walkN nx h j) (hsome : walkN nx h i ≠ none) :
    ∀ k, walkN nx h k ≠ none := by
  have key : ∀ m, walkN nx h (i + m) ≠ none := by
    intro m
    induction m using Nat.strong_induction_on with
    | _ m ih =>
      by_cases hm : m < j - i
      · intro hnone
        exact hsome (heq ▸ walkN_none_mono hnone (by omega))
      · have h1 : i + m = (i + (m - (j - i))) + (j - i) := by omega
        rw [h1, walkN_period heq (by omega) _ (by omega)]
        exact ih (m - (j - i)) (by omega)
  intro k
  by_cases hk : i ≤ k
  · have h1 : k = i + (k - i) := by omega
    rw [h1]
    exact key _
  · intro hnone
    exact hsome (walkN_none_mono hnone (by omega))

/-- Pigeonhole: a walk that never reaches null revisits a node within
`Fintype.card α` steps. -/
theorem exists_revisit {α : Type u} [Fintype α] [DecidableEq α]
    {nx : α → Option α} {h : Option α} (hall : ∀ k, walkN nx h k ≠ none) :
    ∃ i j, i < j ∧ j ≤ Fintype.card α ∧ walkN nx h i = walkN nx h j := by
  have hex : ∀ k : Nat, ∃ a, walkN nx h k = some a := by
    intro k
    cases hw : walkN nx h k with
    | none => exact absurd hw (hall k)
    | some a => exact ⟨a, rfl⟩
  choose f hf using hex
  obtain ⟨u, v, huv, hfeq⟩ :=
    Fintype.exists_ne_map_eq_of_card_lt
      (fun i : Fin (Fintype.card α + 1) => f i.val) (by simp)
  have hw : walkN nx h u.val = walkN nx h v.val := by
    rw [hf u.val, hf v.val]
    exact congrArg some hfeq
  have hvv : u.val ≠ v.val := fun he => huv (Fin.val_injective he)
  rcases Nat.lt_or_ge u.val v.val with hlt | hge
  · exact ⟨u.val, v.val, hlt, by omega, hw⟩
  · exact ⟨v.val, u.val, by omega, by omega, hw.symm⟩

/-- A walk that never reaches null passes the tortoise/hare meeting test at
some index below `Fintype.card α`. -/
theorem exists_detect {α : Type u} [Fintype α] [DecidableEq α]
    {nx : α → Option α} {h : Option α} (hall : ∀ k, walkN nx h k ≠ none) :
    ∃ k, k < Fintype.card α ∧ walkN nx h k = walkN nx h (2 * k + 1) := by
  obtain ⟨a, b, hab, hble, heq⟩ := exists_revisit hall
  have hppos : 0 < b - a := by omega
  have hrlt : a % (b - a) < b - a := Nat.mod_lt _ hppos
  have hrle : a % (b - a) ≤ a := Nat.mod_le _ _
  have hdm := Nat.div_add_mod a (b - a)
  refine ⟨a + (b - a - 1 - a % (b - a)), by omega, ?_⟩
  have hk1 : (a + (b - a - 1 - a % (b - a))) + 1
      = (a / (b - a) + 1) * (b - a) := by
    have hx : (a / (b - a) + 1) * (b - a)
        = (b - a) * (a / (b - a)) + (b - a) := by ring
    rw [hx]
    omega
  have h2k : 2 * (a + (b - a - 1 - a % (b - a))) + 1
      = (a + (b - a - 1 - a % (b - a))) + (a / (b - a) + 1) * (b - a) := by
    rw [← hk1]
    omega
  rw [h2k]
  exact (walkN_period_mul heq (by omega) _ (by omega) (a / (b - a) + 1)).symm

/-- If the walk reaches null, `hasLoopGo` returns false (for any fuel): the
only `true` exit would witness a revisit, which contradicts reaching null. -/
theorem hasLoopGo_eq_false {α : Type u} [DecidableEq α] {nx : α → Option α}
    {h : Option α} (hN : ∃ N, walkN nx h N = none) :
    ∀ (fuel i : Nat) (slow : α) (fast : Option α),
      walkN nx h i = some slow → walkN nx h (2 * i + 1) = fast →
      hasLoopGo nx slow fast fuel = false := by
  intro fuel
  induction fuel with
  | zero => intro i slow fast _ _; rfl
  | succ fuel ih =>
    intro i slow fast hslow hfast
    cases fast with
    | none => simp [hasLoopGo]
    | some f =>
      cases hnf : nx f with
      | none => simp [hasLoopGo, hnf]
      | some f1 =>
        have h2i2 : walkN nx h (2 * i + 2) = some f1 := by
          show (walkN nx h (2 * i + 1)).bind nx = some f1
          rw [hfast]
          exact hnf
        have hcheck : ¬(slow = f ∨ slow = f1) := by
          obtain ⟨N, hNn⟩ := hN
          rintro (rfl | rfl)
          · exact walkN_never_none_of_revisit (show i < 2 * i + 1 by omega)
              (hslow.trans hfast.symm) (by rw [hslow]; exact Option.noConfusion)
              N hNn
          · exact walkN_never_none_of_revisit (show i < 2 * i + 2 by omega)
              (hslow.trans h2i2.symm) (by rw [hslow]; exact Option.noConfusion)
              N hNn
        have hnext : walkN nx h (i + 1) = nx slow := by
          show (walkN nx h i).bind nx = nx slow
          rw [hslow]
          rfl
        obtain ⟨s2, hs2⟩ : ∃ s2, walkN nx h (i + 1) = some s2 := by
          cases hw : walkN nx h (i + 1) with
          | none =>
            have hcon := walkN_none_mono hw (show i + 1 ≤ 2 * i + 2 by omega)
            rw [h2i2] at hcon
            exact Option.noConfusion hcon
          | some s2 => exact ⟨s2, rfl⟩
        have hgetD : (nx slow).getD slow = s2 := by
          rw [← hnext, hs2]
          rfl
        have hfast2 : walkN nx h (2 * (i + 1) + 1) = nx f1 := by
          have he : 2 * (i + 1) + 1 = (2 * i + 2) + 1 := by omega
          rw [he]
          show (walkN nx h (2 * i + 2)).bind nx = nx f1
          rw [h2i2]
          rfl
        simp only [hasLoopGo, hnf, if_neg hcheck, hgetD]
        exact ih (i + 1) s2 (nx f1) hs2 hfast2

/-- If the walk never reaches null and the meeting test holds somewhere
within the fuel budget, `hasLoopGo` returns true. -/
theorem hasLoopGo_eq_true {α : Type u} [DecidableEq α] {nx : α → Option α}
    {h : Option α} (hall : ∀ k, walkN nx h k ≠ none) :
    ∀ (fuel i : Nat) (slow : α) (fast : Option α),
      walkN nx h i = some slow → walkN nx h (2 * i + 1) = fast →
      (∃ k, i ≤ k ∧ k < i + fuel ∧
        (walkN nx h k = walkN nx h (2 * k + 1) ∨
         walkN nx h k = walkN nx h (2 * k + 2))) →
      hasLoopGo nx slow fast fuel = true := by
  intro fuel
  induction fuel with
  | zero =>
    rintro i slow fast _ _ ⟨k, hk1, hk2, _⟩
    omega
  | succ fuel ih =>
    rintro i slow fast hslow hfast ⟨k, hk1, hk2, hk3⟩
    obtain ⟨f, rfl⟩ : ∃ f, fast = some f := by
      cases hfc : fast with
      | none => exact absurd (hfast.trans hfc) (hall (2 * i + 1))
      | some f => exact ⟨f, rfl⟩
    obtain ⟨f1, hnf⟩ : ∃ f1, nx f = some f1 := by
      have h2 : walkN nx h (2 * i + 2) = nx f := by
        show (walkN nx h (2 * i + 1)).bind nx = nx f
        rw [hfast]
        rfl
      cases hc : nx f with
      | none => exact absurd (h2.trans hc) (hall (2 * i + 2))
      | some f1 => exact ⟨f1, rfl⟩
    have h2i2 : walkN nx h (2 * i + 2) = some f1 := by
      show (walkN nx h (2 * i + 1)).bind nx = some f1
      rw [hfast]
      exact hnf
    by_cases hcheck : slow = f ∨ slow = f1
    · simp [hasLoopGo, hnf, hcheck]
    · have hki : k ≠ i := by
        rintro rfl
        rcases hk3 with h3 | h3
        · rw [hslow, hfast] at h3
          exact hcheck (Or.inl (Option.some_injective α h3))
        · rw [hslow, h2i2] at h3
          exact hcheck (Or.inr (Option.some_injective α h3))
      have hnext : walkN nx h (i + 1) = nx slow := by
        show (walkN nx h i).bind nx = nx slow
        rw [hslow]
        rfl
      obtain ⟨s2, hs2⟩ : ∃ s2, walkN nx h (i + 1) = some s2 := by
        cases hw : walkN nx h (i + 1) with
        | none => exact absurd hw (hall (i + 1))
        | some s2 => exact ⟨s2, rfl⟩
      have hgetD : (nx slow).getD slow = s2 := by
        rw [← hnext, hs2]
        rfl
      have hfast2 : walkN nx h (2 * (i + 1) + 1) = nx f1 := by
        have he : 2 * (i + 1) + 1 = (2 * i + 2) + 1 := by omega
        rw [he]
        show (walkN nx h (2 * i + 2)).bind nx = nx f1
        rw [h2i2]
        rfl
      simp only [hasLoopGo, hnf, if_neg hcheck, hgetD]
      exact ih (i + 1) s2 (nx f1) hs2 hfast2 ⟨k, by omega, by omega, hk3⟩

/-- C6: `ListCore::has_loop` (with its fuel `Fintype.card α + 1` proved
sufficient, so the tortoise/hare loop terminates) returns true exactly when
the `m_next` chain from the head never reaches a null terminator, and that
happens exactly when the chain revisits some node; in particular it returns
false for every finite null-terminated chain. -/
theorem claim6_has_loop {α : Type u} [Fintype α] [DecidableEq α]
    (L : ListState α) :
    (L.hasLoopOp = true ↔ ∀ k, walkN L.nx L.head k ≠ none) ∧
    ((∀ k, walkN L.nx L.head k ≠ none) ↔
      ∃ i j, i < j ∧ walkN L.nx L.head i ≠ none ∧
        walkN L.nx L.head i = walkN L.nx L.head j) := by
  constructor
  · constructor
    · intro htrue
      by_contra hcon
      push_neg at hcon
      obtain ⟨N, hN⟩ := hcon
      cases hh : L.head with
      | none =>
        rw [ListState.hasLoopOp, hh] at htrue
        exact Bool.noConfusion htrue
      | some h0 =>
        rw [ListState.hasLoopOp, hh] at htrue
        have htrue2 : hasLoopGo L.nx h0 (L.nx h0) (Fintype.card α + 1) = true :=
          htrue
        have hfalse := @hasLoopGo_eq_false α _ L.nx L.head
          ⟨N, hN⟩ (Fintype.card α + 1) 0 h0 (L.nx h0) hh
          (by show (walkN L.nx L.head 0).bind L.nx = L.nx h0; rw [show walkN L.nx L.head 0 = L.head from rfl, hh]; rfl)
        rw [hfalse] at htrue2
        exact Bool.noConfusion htrue2
    · intro hall
      cases hh : L.head with
      | none => exact absurd (show walkN L.nx L.head 0 = none from hh) (hall 0)
      | some h0 =>
        rw [ListState.hasLoopOp, hh]
        show hasLoopGo L.nx h0 (L.nx h0) (Fintype.card α + 1) = true
        obtain ⟨k, hk, hkeq⟩ := exists_detect hall
        refine hasLoopGo_eq_true hall (Fintype.card α + 1) 0 h0 (L.nx h0) hh
          ?_ ⟨k, by omega, by omega, Or.inl hkeq⟩
        show (walkN L.nx L.head 0).bind L.nx = L.nx h0
        rw [show walkN L.nx L.head 0 = L.head from rfl, hh]
        rfl
  · constructor
    · intro hall
      obtain ⟨i, j, hij, _, heq⟩ := exists_revisit hall
      exact ⟨i, j, hij, hall i, heq⟩
    · rintro ⟨i, j, hij, hsome, heq⟩
      exact walkN_never_none_of_revisit hij heq hsome
